import Mathlib

/- Verification of the capacitor energy-storage simulator
   (src/sim_energy_system_cap.py).

   The numeric state-update loop is embedded shallowly over the real
   numbers: Python floats become elements of ℝ, and every Python float
   division (which raises ZeroDivisionError on a zero denominator)
   becomes the fallible operation `fdiv` returning `Except`.
   `math.sqrt` becomes `Real.sqrt`; its argument is provably nonnegative
   at every call site (the discriminant-recovery branch guarantees it),
   matching the fact that the Python code never reaches `math.sqrt` with
   a negative argument.  The `while` loop (lines 92-125) is embedded as
   the fuel-indexed `simLoop`; termination is proved as stabilization of
   the result once the fuel exceeds the loop's actual iteration count. -/

namespace SimEnergy

/-- Fixed solar irradiance constant (line 30 of the source). -/
noncomputable def irrad : ℝ := 1336.1

/-- The ten command-line parameters (lines 46-55), in source order. -/
structure Params where
  sa_m2 : ℝ
  eff : ℝ
  voc : ℝ
  c_f : ℝ
  r_esr : ℝ
  q0_c : ℝ
  p_on_w : ℝ
  v_thresh : ℝ
  drun_time_track : ℝ
  dur_s : ℝ

/-- The mutable simulation variables of the script.  `run_time_track` is
the time counter (line 67, incremented at line 125); `short_circ_current`
is computed once (line 63) and read inside the loop (line 99). -/
structure SimState where
  run_time_track : ℝ
  q_resultant : ℝ
  i_resultant_a : ℝ
  p_consumption : ℝ
  capacit_term_volt : ℝ
  short_circ_current : ℝ

/-- Runtime faults of the embedded program.  Python float division
raises ZeroDivisionError whenever the denominator is exactly 0. -/
inductive SimError where
  | divisionByZero
deriving DecidableEq

/-- Python float division: raises on a zero denominator (lines 63, 70,
76, 80, 94, 106, 110, 113 all divide). -/
noncomputable def fdiv (a b : ℝ) : Except SimError ℝ :=
  if b = 0 then .error .divisionByZero else .ok (a / b)

/-- The quadratic-root block, duplicated verbatim in the source at lines
70-81 (initialization) and 106-114 (loop body): compute
`expr1 = q/c_f + i*r_esr` and the discriminant `expr1^2 - 4*p*r_esr`;
if the discriminant is negative force the load power to 0 and recompute
(the recomputation of expr1 at lines 76/110 divides by `c_f` again with
identical operands, hence is the already-obtained quotient); finally the
node voltage is `(expr2 + sqrt(discriminant))/2` (lines 80-81/113-114).
Returns `(p_consumption, discriminant_value, capacit_term_volt)`. -/
noncomputable def quadRoot (c_f r_esr q i p : ℝ) : Except SimError (ℝ × ℝ × ℝ) :=
  match fdiv q c_f with
  | .error e => .error e
  | .ok qc =>
    let expr1 := qc + i * r_esr
    let d := expr1 ^ 2 - 4 * p * r_esr
    if d < 0 then
      let p2 := (0 : ℝ)
      let expr1b := qc + i * r_esr
      let d2 := expr1b ^ 2 - 4 * p2 * r_esr
      let expr2 := qc + i * r_esr
      .ok (p2, d2, (expr2 + Real.sqrt d2) / 2)
    else
      let expr2 := qc + i * r_esr
      .ok (p, d, (expr2 + Real.sqrt d) / 2)

/-- Load re-enable logic (lines 102-103): if the load power is 0 and the
previous node voltage reached the open-circuit voltage, restore it. -/
noncomputable def reenabledPower (P : Params) (p v : ℝ) : ℝ :=
  if p = 0 ∧ v ≥ P.voc then P.p_on_w else p

/-- Undervoltage lockout (lines 88-89 and 120-121): a node voltage below
the threshold zeroes the load power. -/
noncomputable def lockoutPower (P : Params) (p v : ℝ) : ℝ :=
  if v < P.v_thresh then 0 else p

/-- Array disconnect (lines 85-86 and 117-118): once the node voltage
reaches the open-circuit voltage a nonzero source current is zeroed. -/
noncomputable def disconnectCurrent (P : Params) (i v : ℝ) : ℝ :=
  if P.voc ≤ v ∧ i ≠ 0 then 0 else i

/-- The initialization phase, lines 60-89: derived source current,
initial quadratic-root step and the two post-voltage constraints.
The state it returns is the one entering the loop; the initial log entry
`[0, capacit_term_volt]` (line 82) is added by `runE`. -/
noncomputable def initSim (P : Params) : Except SimError SimState :=
  let power_generated := irrad * P.sa_m2
  let effective_power := power_generated * P.eff
  match fdiv effective_power P.voc with
  | .error e => .error e
  | .ok short_circ_current =>
    match quadRoot P.c_f P.r_esr P.q0_c short_circ_current P.p_on_w with
    | .error e => .error e
    | .ok (p1, _, v) =>
      .ok { run_time_track := 0
            q_resultant := P.q0_c
            i_resultant_a := disconnectCurrent P short_circ_current v
            p_consumption := lockoutPower P p1 v
            capacit_term_volt := v
            short_circ_current := short_circ_current }

/-- One iteration of the while-loop body, lines 94-121: load current
(the unguarded division of line 94), charge update with clamp (lines
95-96), array reconnection (line 99), load re-enable (lines 102-103),
quadratic-root step (lines 106-114) and post-voltage constraints (lines
117-121).  The time counter is incremented (line 125); the sample that
the loop appends at line 124 carries the pre-increment counter and is
built by `simLoop`. -/
noncomputable def stepSim (P : Params) (s : SimState) : Except SimError SimState :=
  match fdiv s.p_consumption s.capacit_term_volt with
  | .error e => .error e
  | .ok i3_a =>
    let q2 := max (s.q_resultant + (s.i_resultant_a - i3_a) * P.drun_time_track) 0
    let i1 := if 0 ≤ s.capacit_term_volt ∧ s.capacit_term_volt < P.voc then
                s.short_circ_current else 0
    let p1 := reenabledPower P s.p_consumption s.capacit_term_volt
    match quadRoot P.c_f P.r_esr q2 i1 p1 with
    | .error e => .error e
    | .ok (p2, _, v1) =>
      .ok { run_time_track := s.run_time_track + P.drun_time_track
            q_resultant := q2
            i_resultant_a := disconnectCurrent P i1 v1
            p_consumption := lockoutPower P p2 v1
            capacit_term_volt := v1
            short_circ_current := s.short_circ_current }

/-- The while-loop of lines 92-125, fuel-indexed.  The loop condition
reads the time of the last appended sample (`log[-1][0] < dur_s`); each
iteration appends `[run_time_track, capacit_term_volt]` with the
pre-increment time counter (lines 124-125). -/
noncomputable def simLoop (P : Params) : ℕ → SimState → List (ℝ × ℝ) →
    Except SimError (List (ℝ × ℝ))
  | 0, _, log => .ok log
  | fuel + 1, s, log =>
    if (log.getLastD (0, 0)).1 < P.dur_s then
      match stepSim P s with
      | .error e => .error e
      | .ok s2 => simLoop P fuel s2 (log ++ [(s.run_time_track, s2.capacit_term_volt)])
    else .ok log

/-- A whole run: initialization, the initial log entry
`[[0.0, capacit_term_volt]]` of line 82, then the loop. -/
noncomputable def runE (P : Params) (fuel : ℕ) : Except SimError (List (ℝ × ℝ)) :=
  match initSim P with
  | .error e => .error e
  | .ok s0 => simLoop P fuel s0 [(s0.run_time_track, s0.capacit_term_volt)]

/-- A run completes with log `log` if every sufficiently large fuel
bound yields exactly `log`: the fuel-free while-loop finishes normally
and produces `log`. -/
def Completes (P : Params) (log : List (ℝ × ℝ)) : Prop :=
  ∃ N, ∀ n, N ≤ n → runE P n = Except.ok log

/-- Closed form for the number of loop iterations still to run when the
time counter is `r` and the last appended sample carries time `t`. -/
noncomputable def iterCount (P : Params) (r t : ℝ) : ℕ :=
  if P.dur_s ≤ t then 0 else (⌈(P.dur_s - r) / P.drun_time_track⌉.toNat + 1)

/-- The invariant of claim C10: the load power is 0 or the configured
active power, and the source current is 0 or the stored short-circuit
current. -/
def simInv (P : Params) (s : SimState) : Prop :=
  (s.p_consumption = 0 ∨ s.p_consumption = P.p_on_w) ∧
    (s.i_resultant_a = 0 ∨ s.i_resultant_a = s.short_circ_current)

/-- The property asserted by claim C2 for a list of sample times:
consecutive entries increase by exactly `dt`. -/
def TimesStepped (dt : ℝ) : List ℝ → Prop
  | [] => True
  | [_] => True
  | a :: b :: rest => b = a + dt ∧ TimesStepped dt (b :: rest)

/-- Concrete parameters of a run that completes without a fault:
`sa_m2 = 0, eff = 0, voc = 1, c_f = 1, r_esr = 0, q0_c = 1, p_on_w = 0,
v_thresh = 0, drun_time_track = 1, dur_s = 1`. -/
noncomputable def Pa : Params := ⟨0, 0, 1, 1, 0, 1, 0, 0, 1, 1⟩

/-- The log produced by the run with parameters `Pa`. -/
noncomputable def logPa : List (ℝ × ℝ) := [(0, 1), (0, 1), (1, 1)]

/-- The reference inputs named by the spec (§8 end-to-end example):
`sa_m2 = 1.0, eff = 0.2, voc = 5.0, c_f = 0.01, r_esr = 0.1, q0_c = 0.0,
p_on_w = 0.0, v_thresh = 1.0, drun_time_track = 0.1, dur_s = 1.0`. -/
noncomputable def Pref : Params := ⟨1, 0.2, 5, 0.01, 0.1, 0, 0, 1, 0.1, 1⟩

/-- Concrete parameters with `voc < v_thresh` (voc = 1/2, v_thresh = 1,
p_on_w = 3/16, q0_c = 1, c_f = 1, r_esr = 1) exercising the load
re-enable after an undervoltage lockout. -/
noncomputable def Pb : Params := ⟨0, 0, 1/2, 1, 1, 1, 3/16, 1, 1, 1⟩

/-- Concrete parameters with a negative initial charge. -/
noncomputable def Pneg : Params := ⟨0, 0, 1, 1, 0, -1, 0, 0, 1, 1⟩

lemma fdiv_of_ne (a b : ℝ) (h : b ≠ 0) : fdiv a b = .ok (a / b) := by
  simp [fdiv, h]

lemma fdiv_den_zero (a : ℝ) : fdiv a 0 = .error .divisionByZero := by
  simp [fdiv]

lemma fdiv_ok_elim {a b x : ℝ} (h : fdiv a b = .ok x) : b ≠ 0 ∧ x = a / b := by
  by_cases hb : b = 0
  · simp [fdiv, hb] at h
  · simp [fdiv, hb] at h
    exact ⟨hb, h.symm⟩

lemma quadRoot_ok_elim {c r q i p : ℝ} {w : ℝ × ℝ × ℝ}
    (h : quadRoot c r q i p = .ok w) :
    c ≠ 0 ∧
      ((q / c + i * r) ^ 2 - 4 * p * r < 0 ∧
          w = (0, (q / c + i * r) ^ 2 - 4 * 0 * r,
            (q / c + i * r + Real.sqrt ((q / c + i * r) ^ 2 - 4 * 0 * r)) / 2) ∨
        ¬ (q / c + i * r) ^ 2 - 4 * p * r < 0 ∧
          w = (p, (q / c + i * r) ^ 2 - 4 * p * r,
            (q / c + i * r + Real.sqrt ((q / c + i * r) ^ 2 - 4 * p * r)) / 2)) := by
  unfold quadRoot at h
  by_cases hc : c = 0
  · rw [hc, fdiv_den_zero] at h
    simp at h
  · rw [fdiv_of_ne _ _ hc] at h
    refine ⟨hc, ?_⟩
    by_cases hd : (q / c + i * r) ^ 2 - 4 * p * r < 0
    · left
      simp only [hd, if_pos] at h
      exact ⟨hd, (Except.ok.injEq _ _).mp h.symm⟩
    · right
      simp only [hd, if_neg, if_false] at h
      exact ⟨hd, (Except.ok.injEq _ _).mp h.symm⟩

lemma quadRoot_of_ne {c : ℝ} (r q i p : ℝ) (hc : c ≠ 0) :
    ∃ w, quadRoot c r q i p = .ok w := by
  unfold quadRoot
  rw [fdiv_of_ne _ _ hc]
  by_cases hd : (q / c + i * r) ^ 2 - 4 * p * r < 0
  · refine ⟨(0, (q / c + i * r) ^ 2 - 4 * 0 * r,
      (q / c + i * r + Real.sqrt ((q / c + i * r) ^ 2 - 4 * 0 * r)) / 2), ?_⟩
    simp only [if_pos hd]
  · refine ⟨(p, (q / c + i * r) ^ 2 - 4 * p * r,
      (q / c + i * r + Real.sqrt ((q / c + i * r) ^ 2 - 4 * p * r)) / 2), ?_⟩
    simp only [if_neg hd]

lemma quadRoot_p_zero {c : ℝ} (r q i : ℝ) (hc : c ≠ 0) :
    quadRoot c r q i 0 =
      .ok (0, (q / c + i * r) ^ 2,
        (q / c + i * r + |q / c + i * r|) / 2) := by
  unfold quadRoot
  rw [fdiv_of_ne _ _ hc]
  have h1 : (q / c + i * r) ^ 2 - 4 * 0 * r = (q / c + i * r) ^ 2 := by ring
  have hd : ¬ (q / c + i * r) ^ 2 - 4 * 0 * r < 0 := by
    rw [h1]; exact not_lt.mpr (sq_nonneg _)
  simp only [hd, if_neg, if_false, h1, Real.sqrt_sq_eq_abs]
  split <;> rfl

lemma stepSim_ok_elim {P : Params} {s s2 : SimState}
    (h : stepSim P s = .ok s2) :
    ∃ i3 p2 d v1,
      fdiv s.p_consumption s.capacit_term_volt = .ok i3 ∧
      quadRoot P.c_f P.r_esr
        (max (s.q_resultant + (s.i_resultant_a - i3) * P.drun_time_track) 0)
        (if 0 ≤ s.capacit_term_volt ∧ s.capacit_term_volt < P.voc then
          s.short_circ_current else 0)
        (reenabledPower P s.p_consumption s.capacit_term_volt) = .ok (p2, d, v1) ∧
      s2 = { run_time_track := s.run_time_track + P.drun_time_track
             q_resultant :=
               max (s.q_resultant + (s.i_resultant_a - i3) * P.drun_time_track) 0
             i_resultant_a := disconnectCurrent P
               (if 0 ≤ s.capacit_term_volt ∧ s.capacit_term_volt < P.voc then
                 s.short_circ_current else 0) v1
             p_consumption := lockoutPower P p2 v1
             capacit_term_volt := v1
             short_circ_current := s.short_circ_current } := by
  unfold stepSim at h
  cases hfd : fdiv s.p_consumption s.capacit_term_volt with
  | error e => rw [hfd] at h; simp at h
  | ok i3 =>
    rw [hfd] at h
    simp only at h
    cases hq : quadRoot P.c_f P.r_esr
        (max (s.q_resultant + (s.i_resultant_a - i3) * P.drun_time_track) 0)
        (if 0 ≤ s.capacit_term_volt ∧ s.capacit_term_volt < P.voc then
          s.short_circ_current else 0)
        (reenabledPower P s.p_consumption s.capacit_term_volt) with
    | error e => rw [hq] at h; simp at h
    | ok w =>
      obtain ⟨p2, d, v1⟩ := w
      rw [hq] at h
      simp only at h
      exact ⟨i3, p2, d, v1, rfl, hq, ((Except.ok.injEq _ _).mp h).symm⟩

lemma initSim_ok_elim {P : Params} {s0 : SimState}
    (h : initSim P = .ok s0) :
    ∃ scc p1 d v,
      fdiv (irrad * P.sa_m2 * P.eff) P.voc = .ok scc ∧
      quadRoot P.c_f P.r_esr P.q0_c scc P.p_on_w = .ok (p1, d, v) ∧
      s0 = { run_time_track := 0
             q_resultant := P.q0_c
             i_resultant_a := disconnectCurrent P scc v
             p_consumption := lockoutPower P p1 v
             capacit_term_volt := v
             short_circ_current := scc } := by
  simp only [initSim] at h
  cases hfd : fdiv (irrad * P.sa_m2 * P.eff) P.voc with
  | error e => rw [hfd] at h; simp at h
  | ok scc =>
    rw [hfd] at h
    simp only at h
    cases hq : quadRoot P.c_f P.r_esr P.q0_c scc P.p_on_w with
    | error e => rw [hq] at h; simp at h
    | ok w =>
      obtain ⟨p1, d, v⟩ := w
      rw [hq] at h
      simp only at h
      exact ⟨scc, p1, d, v, rfl, hq, ((Except.ok.injEq _ _).mp h).symm⟩

lemma simLoop_stop (P : Params) (fuel : ℕ) (s : SimState) (log : List (ℝ × ℝ))
    (h : ¬ (log.getLastD (0, 0)).1 < P.dur_s) :
    simLoop P fuel s log = .ok log := by
  cases fuel with
  | zero => rfl
  | succ n => simp only [simLoop, if_neg h]

lemma stepSim_rt {P : Params} {s s2 : SimState} (h : stepSim P s = .ok s2) :
    s2.run_time_track = s.run_time_track + P.drun_time_track := by
  obtain ⟨i3, p2, d, v1, _, _, hs2⟩ := stepSim_ok_elim h
  rw [hs2]

lemma initSim_rt {P : Params} {s0 : SimState} (h : initSim P = .ok s0) :
    s0.run_time_track = 0 := by
  obtain ⟨scc, p1, d, v, _, _, hs0⟩ := initSim_ok_elim h
  rw [hs0]

lemma simLoop_stable (P : Params) :
    ∀ (n : ℕ) (s : SimState) (log : List (ℝ × ℝ)),
      P.dur_s ≤ s.run_time_track + n * P.drun_time_track →
      ∀ m, simLoop P (n + m + 1) s log = simLoop P (n + 1) s log := by
  intro n
  induction n with
  | zero =>
    intro s log hb m
    by_cases hcond : (log.getLastD (0, 0)).1 < P.dur_s
    · simp only [Nat.zero_add, simLoop, if_pos hcond]
      cases hst : stepSim P s with
      | error e => rfl
      | ok s2 =>
        apply simLoop_stop
        rw [List.getLastD_concat]
        simp only [Nat.cast_zero, zero_mul, add_zero] at hb
        exact not_lt.mpr hb
    · rw [simLoop_stop P _ _ _ hcond, simLoop_stop P _ _ _ hcond]
  | succ n ih =>
    intro s log hb m
    by_cases hcond : (log.getLastD (0, 0)).1 < P.dur_s
    · have e1 : n + 1 + m + 1 = (n + m + 1) + 1 := by omega
      rw [e1]
      simp only [simLoop, if_pos hcond]
      cases hst : stepSim P s with
      | error e => rfl
      | ok s2 =>
        have hb2 : P.dur_s ≤ s2.run_time_track + n * P.drun_time_track := by
          rw [stepSim_rt hst]
          push_cast at hb ⊢
          nlinarith [hb]
        exact ih s2 _ hb2 m
    · rw [simLoop_stop P _ _ _ hcond, simLoop_stop P _ _ _ hcond]

lemma iterCount_stop (P : Params) (r t : ℝ) (h : P.dur_s ≤ t) :
    iterCount P r t = 0 := by
  simp [iterCount, h]

lemma iterCount_succ (P : Params) (hdt : 0 < P.drun_time_track) (r t : ℝ)
    (ht : t < P.dur_s) :
    iterCount P r t = iterCount P (r + P.drun_time_track) r + 1 := by
  have hnt : ¬ P.dur_s ≤ t := not_le.mpr ht
  rw [iterCount, if_neg hnt]
  by_cases hr : P.dur_s ≤ r
  · rw [iterCount, if_pos hr]
    have h1 : (P.dur_s - r) / P.drun_time_track ≤ 0 :=
      div_nonpos_iff.mpr (Or.inr ⟨by linarith, hdt.le⟩)
    have h2 : ⌈(P.dur_s - r) / P.drun_time_track⌉ ≤ 0 := by
      exact_mod_cast Int.ceil_le.mpr (by exact_mod_cast h1)
    rw [Int.toNat_of_nonpos h2]
  · rw [iterCount, if_neg hr]
    have hrd : 0 < P.dur_s - r := by linarith [not_le.mp hr]
    have hpos : 0 < (P.dur_s - r) / P.drun_time_track := div_pos hrd hdt
    have hc1 : 1 ≤ ⌈(P.dur_s - r) / P.drun_time_track⌉ := Int.ceil_pos.mpr hpos
    have harg : (P.dur_s - r - P.drun_time_track) / P.drun_time_track =
        (P.dur_s - r) / P.drun_time_track - 1 := by
      rw [sub_div, div_self (ne_of_gt hdt)]
    have hsub : P.dur_s - (r + P.drun_time_track) =
        P.dur_s - r - P.drun_time_track := by ring
    have hceil : ⌈(P.dur_s - (r + P.drun_time_track)) / P.drun_time_track⌉ =
        ⌈(P.dur_s - r) / P.drun_time_track⌉ - 1 := by
      rw [hsub, harg]
      have : ((1 : ℤ) : ℝ) = (1 : ℝ) := by norm_num
      rw [← this, Int.ceil_sub_int]
    rw [hceil]
    omega

lemma range_map_shift (r dt : ℝ) (n : ℕ) :
    (List.range (n + 1)).map (fun (m : ℕ) => r + (m : ℝ) * dt) =
      r :: (List.range n).map (fun (m : ℕ) => (r + dt) + (m : ℝ) * dt) := by
  rw [List.range_succ_eq_map, List.map_cons, List.map_map]
  refine congrArg₂ _ (by norm_num) ?_
  refine List.map_congr_left ?_
  intro m _
  simp only [Function.comp]
  push_cast
  ring

lemma simLoop_times (P : Params) (hdt : 0 < P.drun_time_track) :
    ∀ (fuel : ℕ) (s : SimState) (log log2 : List (ℝ × ℝ)),
      simLoop P fuel s log = .ok log2 →
      simLoop P (fuel + 1) s log = .ok log2 →
      log2.map Prod.fst = log.map Prod.fst ++
        (List.range (iterCount P s.run_time_track ((log.getLastD (0, 0)).1))).map
          (fun (m : ℕ) => s.run_time_track + (m : ℝ) * P.drun_time_track) := by
  intro fuel
  induction fuel with
  | zero =>
    intro s log log2 h1 h2
    have hlog : log2 = log := by
      simpa [simLoop] using h1.symm
    by_cases hcond : (log.getLastD (0, 0)).1 < P.dur_s
    · exfalso
      simp only [simLoop, if_pos hcond] at h2
      cases hst : stepSim P s with
      | error e => rw [hst] at h2; simp at h2
      | ok s2 =>
        rw [hst] at h2
        simp only [simLoop] at h2
        rw [hlog] at h2
        have := congrArg List.length ((Except.ok.injEq _ _).mp h2)
        simp at this
    · rw [hlog, iterCount_stop P _ _ (not_lt.mp hcond)]
      simp
  | succ fuel ih =>
    intro s log log2 h1 h2
    by_cases hcond : (log.getLastD (0, 0)).1 < P.dur_s
    · simp only [simLoop, if_pos hcond] at h1 h2
      cases hst : stepSim P s with
      | error e => rw [hst] at h1; simp at h1
      | ok s2 =>
        rw [hst] at h1 h2
        simp only at h1 h2
        have hrec := ih s2 (log ++ [(s.run_time_track, s2.capacit_term_volt)]) log2 h1 h2
        rw [hrec, List.getLastD_concat, stepSim_rt hst]
        rw [iterCount_succ P hdt s.run_time_track _ hcond]
        rw [range_map_shift]
        simp
    · rw [simLoop_stop P _ _ _ hcond] at h1
      have hlog : log2 = log := by simpa using h1.symm
      rw [hlog, iterCount_stop P _ _ (not_lt.mp hcond)]
      simp

lemma runE_times_core (P : Params) (log : List (ℝ × ℝ))
    (hdt : 0 < P.drun_time_track) (hC : Completes P log) :
    log.map Prod.fst = 0 :: (List.range (iterCount P 0 0)).map
      (fun (m : ℕ) => (m : ℝ) * P.drun_time_track) := by
  obtain ⟨N, hN⟩ := hC
  have h1 : runE P N = .ok log := hN N le_rfl
  have h2 : runE P (N + 1) = .ok log := hN (N + 1) (by omega)
  unfold runE at h1 h2
  cases hinit : initSim P with
  | error e => rw [hinit] at h1; simp at h1
  | ok s0 =>
    rw [hinit] at h1 h2
    simp only at h1 h2
    have hrt := initSim_rt hinit
    have hmain := simLoop_times P hdt N s0
      [(s0.run_time_track, s0.capacit_term_volt)] log h1 h2
    rw [hrt] at hmain
    simp only [List.map_cons, List.map_nil, List.getLastD, zero_add] at hmain
    rw [hmain]
    simp

lemma runE_length_core (P : Params) (log : List (ℝ × ℝ))
    (hdt : 0 < P.drun_time_track) (hC : Completes P log) :
    log.length = iterCount P 0 0 + 1 := by
  have h := congrArg List.length (runE_times_core P log hdt hC)
  simpa using h

lemma iterCount_init (P : Params) :
    iterCount P 0 0 =
      if P.dur_s ≤ 0 then 0
      else ⌈P.dur_s / P.drun_time_track⌉.toNat + 1 := by
  simp [iterCount]

lemma ceil_of_multiple {P : Params} {n : ℕ} (hdt : 0 < P.drun_time_track)
    (h : P.dur_s = n * P.drun_time_track) :
    ⌈P.dur_s / P.drun_time_track⌉ = n ∧ ⌊P.dur_s / P.drun_time_track⌋ = n := by
  have hx : P.dur_s / P.drun_time_track = n := by
    rw [h, mul_div_assoc, div_self (ne_of_gt hdt), mul_one]
  rw [hx]
  exact ⟨Int.ceil_natCast n, Int.floor_natCast n⟩

lemma ceil_of_not_multiple {P : Params} (hdt : 0 < P.drun_time_track)
    (hdur : 0 < P.dur_s) (h : ¬ ∃ n : ℕ, P.dur_s = n * P.drun_time_track) :
    ⌈P.dur_s / P.drun_time_track⌉ = ⌊P.dur_s / P.drun_time_track⌋ + 1 := by
  set x := P.dur_s / P.drun_time_track with hxdef
  have hxpos : 0 < x := div_pos hdur hdt
  have h1 : ⌊x⌋ ≤ ⌈x⌉ := Int.floor_le_ceil x
  have h2 : ⌈x⌉ ≤ ⌊x⌋ + 1 := Int.ceil_le_floor_add_one x
  rcases eq_or_lt_of_le h1 with heq | hlt
  · exfalso
    have hint : x = (⌊x⌋ : ℝ) := by
      have hle : x ≤ (⌊x⌋ : ℝ) := by
        calc x ≤ (⌈x⌉ : ℝ) := Int.le_ceil x
          _ = (⌊x⌋ : ℝ) := by exact_mod_cast heq.symm
      exact le_antisymm hle (Int.floor_le x)
    have hfln : 0 ≤ ⌊x⌋ := Int.floor_nonneg.mpr hxpos.le
    refine h ⟨⌊x⌋.toNat, ?_⟩
    have hxmul : P.dur_s = x * P.drun_time_track := by
      rw [hxdef, div_mul_cancel₀ _ (ne_of_gt hdt)]
    have hcast : ((⌊x⌋.toNat : ℕ) : ℝ) = (⌊x⌋ : ℝ) := by
      exact_mod_cast Int.toNat_of_nonneg hfln
    rw [hxmul, hcast, ← hint]
  · omega

/-- C7: for `timeStepS > 0` and `durationS >= 0` the simulation loop
always terminates: there is a fuel bound past which the run's result
(whether a finished log or a propagated fault) no longer changes, i.e.
the unbounded while-loop finishes after finitely many iterations. -/
theorem simLoop_terminates (P : Params) (hdt : 0 < P.drun_time_track)
    (hdur : 0 ≤ P.dur_s) :
    ∃ N, ∀ n, runE P (N + n) = runE P N := by
  obtain ⟨k, hk⟩ := exists_nat_ge (P.dur_s / P.drun_time_track)
  refine ⟨k + 1, fun n => ?_⟩
  unfold runE
  cases hinit : initSim P with
  | error e => rfl
  | ok s0 =>
    simp only
    have hb : P.dur_s ≤ s0.run_time_track + k * P.drun_time_track := by
      rw [initSim_rt hinit, zero_add]
      calc P.dur_s = P.dur_s / P.drun_time_track * P.drun_time_track := by
            rw [div_mul_cancel₀ _ (ne_of_gt hdt)]
        _ ≤ k * P.drun_time_track := mul_le_mul_of_nonneg_right hk hdt.le
    have hst := simLoop_stable P k s0
      [(s0.run_time_track, s0.capacit_term_volt)] hb n
    have harr : k + 1 + n = k + n + 1 := by omega
    rw [harr]
    exact hst

/-- C7 witness: the concrete parameters `Pa` satisfy the hypotheses and
the loop result stabilizes. -/
theorem simLoop_terminates_witness :
    (0 : ℝ) < Pa.drun_time_track ∧ (0 : ℝ) ≤ Pa.dur_s ∧
      ∃ N, ∀ n, runE Pa (N + n) = runE Pa N := by
  refine ⟨by norm_num [Pa], by norm_num [Pa], ?_⟩
  exact simLoop_terminates Pa (by norm_num [Pa]) (by norm_num [Pa])

/-- C2 (amended): in a run that completes, the emitted time sequence is
`0` (the initial sample of line 82) followed by `0, dt, 2*dt, ...`: the
first loop iteration re-emits time 0 because line 124 appends
`run_time_track` before line 125 increments it, and only from the second
sample onward do consecutive times increase by exactly `dt`. -/
theorem runE_times_shape (P : Params) (log : List (ℝ × ℝ))
    (hdt : 0 < P.drun_time_track) (hC : Completes P log) :
    log.map Prod.fst = 0 :: (List.range (iterCount P 0 0)).map
      (fun (m : ℕ) => (m : ℝ) * P.drun_time_track) :=
  runE_times_core P log hdt hC

/-- C1 (amended): counting the initial sample, a completed run emits
1 sample when `durationS = 0`, `floor(durationS/timeStepS) + 2` samples
when `durationS` is a positive exact multiple of `timeStepS`, and
`floor(durationS/timeStepS) + 3` samples otherwise — one more than the
claim states in each positive case, because the first loop iteration
re-emits time 0 (lines 124-125 append before incrementing). -/
theorem runE_sample_count (P : Params) (log : List (ℝ × ℝ))
    (hdt : 0 < P.drun_time_track) (hdur : 0 ≤ P.dur_s) (hC : Completes P log) :
    (P.dur_s = 0 → log.length = 1) ∧
    (P.dur_s ≠ 0 → (∃ n : ℕ, P.dur_s = n * P.drun_time_track) →
      log.length = ⌊P.dur_s / P.drun_time_track⌋.toNat + 2) ∧
    (P.dur_s ≠ 0 → ¬ (∃ n : ℕ, P.dur_s = n * P.drun_time_track) →
      log.length = ⌊P.dur_s / P.drun_time_track⌋.toNat + 3) := by
  have hlen := runE_length_core P log hdt hC
  refine ⟨?_, ?_, ?_⟩
  · intro h0
    rw [hlen, iterCount_init]
    simp [h0]
  · rintro h0 ⟨n, hn⟩
    have hpos : 0 < P.dur_s := lt_of_le_of_ne hdur (Ne.symm h0)
    obtain ⟨hc, hf⟩ := ceil_of_multiple hdt hn
    rw [hlen, iterCount_init, if_neg (not_le.mpr hpos), hc, hf]
  · intro h0 hnm
    have hpos : 0 < P.dur_s := lt_of_le_of_ne hdur (Ne.symm h0)
    have hc := ceil_of_not_multiple hdt hpos hnm
    have hfl : 0 ≤ ⌊P.dur_s / P.drun_time_track⌋ :=
      Int.floor_nonneg.mpr (div_pos hpos hdt).le
    rw [hlen, iterCount_init, if_neg (not_le.mpr hpos), hc]
    omega

lemma quadRoot_one_cfg : quadRoot 1 0 1 0 0 = .ok (0, 1, 1) := by
  rw [quadRoot_p_zero 0 1 0 (by norm_num : (1 : ℝ) ≠ 0)]
  norm_num

lemma quadRoot_ref_init :
    quadRoot 0.01 0.1 0 53.444 0 = .ok (0, 5.3444 ^ 2, 5.3444) := by
  rw [quadRoot_p_zero 0.1 0 53.444 (by norm_num : (0.01 : ℝ) ≠ 0)]
  norm_num [abs_of_nonneg]

lemma quadRoot_ref_loop : quadRoot 0.01 0.1 0 0 0 = .ok (0, 0, 0) := by
  rw [quadRoot_p_zero 0.1 0 0 (by norm_num : (0.01 : ℝ) ≠ 0)]
  norm_num

lemma quadRoot_neg_init : quadRoot 1 0 (-1) 0 0 = .ok (0, 1, 0) := by
  rw [quadRoot_p_zero 0 (-1) 0 (by norm_num : (1 : ℝ) ≠ 0)]
  norm_num

lemma sqrt_quarter : Real.sqrt ((1 : ℝ) / 4) = 1 / 2 := by
  rw [show (1 : ℝ) / 4 = (1 / 2) ^ 2 by norm_num,
    Real.sqrt_sq (by norm_num : (0 : ℝ) ≤ 1 / 2)]

lemma quadRoot_pb : quadRoot 1 1 1 0 (3 / 16) = .ok (3 / 16, 1 / 4, 3 / 4) := by
  unfold quadRoot
  rw [fdiv_of_ne _ _ (by norm_num : (1 : ℝ) ≠ 0)]
  simp only
  rw [if_neg (by norm_num : ¬ ((1 : ℝ) / 1 + 0 * 1) ^ 2 - 4 * (3 / 16) * 1 < 0)]
  rw [show ((1 : ℝ) / 1 + 0 * 1) ^ 2 - 4 * (3 / 16) * 1 = 1 / 4 by norm_num]
  rw [sqrt_quarter]
  norm_num

lemma quadRoot_c4 : quadRoot 1 1 0 0 1 = .ok (0, 0, 0) := by
  unfold quadRoot
  rw [fdiv_of_ne _ _ (by norm_num : (1 : ℝ) ≠ 0)]
  simp only
  rw [if_pos (by norm_num : ((0 : ℝ) / 1 + 0 * 1) ^ 2 - 4 * 1 * 1 < 0)]
  rw [show ((0 : ℝ) / 1 + 0 * 1) ^ 2 - 4 * 0 * 1 = 0 by norm_num]
  rw [Real.sqrt_zero]
  norm_num

lemma quadRoot_c8 : quadRoot 1 0 1 0 3 = .ok (3, 1, 1) := by
  unfold quadRoot
  rw [fdiv_of_ne _ _ (by norm_num : (1 : ℝ) ≠ 0)]
  simp only
  rw [if_neg (by norm_num : ¬ ((1 : ℝ) / 1 + 0 * 0) ^ 2 - 4 * 3 * 0 < 0)]
  rw [show ((1 : ℝ) / 1 + 0 * 0) ^ 2 - 4 * 3 * 0 = 1 by norm_num]
  rw [Real.sqrt_one]
  norm_num

lemma initSim_eval (P : Params) (scc p1 d v : ℝ)
    (h1 : fdiv (irrad * P.sa_m2 * P.eff) P.voc = .ok scc)
    (h2 : quadRoot P.c_f P.r_esr P.q0_c scc P.p_on_w = .ok (p1, d, v)) :
    initSim P = .ok (SimState.mk 0 P.q0_c (disconnectCurrent P scc v)
      (lockoutPower P p1 v) v scc) := by
  simp only [initSim]
  rw [h1]
  simp only
  rw [h2]

lemma stepSim_eval (P : Params) (s : SimState) (i3 p2 d v1 : ℝ)
    (h1 : fdiv s.p_consumption s.capacit_term_volt = .ok i3)
    (h2 : quadRoot P.c_f P.r_esr
        (max (s.q_resultant + (s.i_resultant_a - i3) * P.drun_time_track) 0)
        (if 0 ≤ s.capacit_term_volt ∧ s.capacit_term_volt < P.voc then
          s.short_circ_current else 0)
        (reenabledPower P s.p_consumption s.capacit_term_volt) = .ok (p2, d, v1)) :
    stepSim P s = .ok (SimState.mk (s.run_time_track + P.drun_time_track)
      (max (s.q_resultant + (s.i_resultant_a - i3) * P.drun_time_track) 0)
      (disconnectCurrent P
        (if 0 ≤ s.capacit_term_volt ∧ s.capacit_term_volt < P.voc then
          s.short_circ_current else 0) v1)
      (lockoutPower P p2 v1) v1 s.short_circ_current) := by
  unfold stepSim
  rw [h1]
  simp only
  rw [h2]

lemma stepSim_fault_core (P : Params) (s : SimState)
    (hv : s.capacit_term_volt = 0) :
    stepSim P s = .error .divisionByZero := by
  unfold stepSim
  rw [hv, fdiv_den_zero]

lemma simLoop_fault_core (P : Params) (s : SimState)
    (hv : s.capacit_term_volt = 0) (fuel : ℕ) (log : List (ℝ × ℝ))
    (hcond : (log.getLastD (0, 0)).1 < P.dur_s) :
    simLoop P (fuel + 1) s log = .error .divisionByZero := by
  simp only [simLoop, if_pos hcond, stepSim_fault_core P s hv]

lemma simLoop_step (P : Params) (fuel : ℕ) (s s2 : SimState)
    (log : List (ℝ × ℝ)) (hcond : (log.getLastD (0, 0)).1 < P.dur_s)
    (hstep : stepSim P s = .ok s2) :
    simLoop P (fuel + 1) s log =
      simLoop P fuel s2 (log ++ [(s.run_time_track, s2.capacit_term_volt)]) := by
  simp only [simLoop, if_pos hcond, hstep]

lemma initSim_Pa : initSim Pa = .ok (SimState.mk 0 1 0 0 1 0) := by
  have h1 : fdiv (irrad * Pa.sa_m2 * Pa.eff) Pa.voc = .ok 0 := by
    rw [show irrad * Pa.sa_m2 * Pa.eff = (0 : ℝ) by norm_num [irrad, Pa]]
    rw [fdiv_of_ne _ _ (show Pa.voc ≠ 0 by norm_num [Pa])]
    norm_num
  have h2 : quadRoot Pa.c_f Pa.r_esr Pa.q0_c 0 Pa.p_on_w = .ok (0, 1, 1) :=
    quadRoot_one_cfg
  rw [initSim_eval Pa 0 0 1 1 h1 h2]
  norm_num [Pa, disconnectCurrent, lockoutPower]

lemma stepSim_Pa (t : ℝ) :
    stepSim Pa (SimState.mk t 1 0 0 1 0) = .ok (SimState.mk (t + 1) 1 0 0 1 0) := by
  have h1 : fdiv (SimState.mk t 1 0 0 1 0).p_consumption
      (SimState.mk t 1 0 0 1 0).capacit_term_volt = .ok 0 := by
    show fdiv 0 1 = .ok 0
    rw [fdiv_of_ne _ _ (by norm_num : (1 : ℝ) ≠ 0)]
    norm_num
  have h2 : quadRoot Pa.c_f Pa.r_esr
      (max ((SimState.mk t 1 0 0 1 0).q_resultant +
        ((SimState.mk t 1 0 0 1 0).i_resultant_a - 0) * Pa.drun_time_track) 0)
      (if 0 ≤ (SimState.mk t 1 0 0 1 0).capacit_term_volt ∧
          (SimState.mk t 1 0 0 1 0).capacit_term_volt < Pa.voc then
        (SimState.mk t 1 0 0 1 0).short_circ_current else 0)
      (reenabledPower Pa (SimState.mk t 1 0 0 1 0).p_consumption
        (SimState.mk t 1 0 0 1 0).capacit_term_volt) = .ok (0, 1, 1) := by
    rw [show max ((SimState.mk t 1 0 0 1 0).q_resultant +
        ((SimState.mk t 1 0 0 1 0).i_resultant_a - 0) * Pa.drun_time_track) 0 = (1 : ℝ)
      by norm_num [Pa, max_def]]
    rw [show (if 0 ≤ (SimState.mk t 1 0 0 1 0).capacit_term_volt ∧
          (SimState.mk t 1 0 0 1 0).capacit_term_volt < Pa.voc then
        (SimState.mk t 1 0 0 1 0).short_circ_current else 0) = (0 : ℝ)
      by norm_num [Pa]]
    rw [show reenabledPower Pa (SimState.mk t 1 0 0 1 0).p_consumption
        (SimState.mk t 1 0 0 1 0).capacit_term_volt = (0 : ℝ)
      by norm_num [reenabledPower, Pa]]
    exact quadRoot_one_cfg
  rw [stepSim_eval Pa _ 0 0 1 1 h1 h2]
  norm_num [Pa, disconnectCurrent, lockoutPower, max_def]

lemma runE_Pa (m : ℕ) : runE Pa (m + 2) = .ok logPa := by
  unfold runE
  rw [initSim_Pa]
  show simLoop Pa (m + 1 + 1) (SimState.mk 0 1 0 0 1 0) [(0, 1)] = .ok logPa
  rw [simLoop_step Pa (m + 1) _ (SimState.mk 1 1 0 0 1 0) _
    (by show (0 : ℝ) < Pa.dur_s; norm_num [Pa])
    (by have := stepSim_Pa 0; norm_num at this; exact this)]
  show simLoop Pa (m + 1) (SimState.mk 1 1 0 0 1 0) [(0, 1), (0, 1)] = .ok logPa
  rw [simLoop_step Pa m _ (SimState.mk 2 1 0 0 1 0) _
    (by show (0 : ℝ) < Pa.dur_s; norm_num [Pa])
    (by have := stepSim_Pa 1; norm_num at this; exact this)]
  show simLoop Pa m (SimState.mk 2 1 0 0 1 0) [(0, 1), (0, 1), (1, 1)] = .ok logPa
  rw [simLoop_stop Pa m _ _ (by show ¬ (1 : ℝ) < Pa.dur_s; norm_num [Pa])]
  rfl

lemma Completes_Pa : Completes Pa logPa := by
  refine ⟨2, fun n hn => ?_⟩
  obtain ⟨m, rfl⟩ := Nat.exists_eq_add_of_le hn
  rw [show 2 + m = m + 2 by omega]
  exact runE_Pa m

lemma initSim_Pref : initSim Pref = .ok (SimState.mk 0 0 0 0 5.3444 53.444) := by
  have h1 : fdiv (irrad * Pref.sa_m2 * Pref.eff) Pref.voc = .ok 53.444 := by
    rw [show irrad * Pref.sa_m2 * Pref.eff = (267.22 : ℝ) by norm_num [irrad, Pref]]
    rw [fdiv_of_ne _ _ (show Pref.voc ≠ 0 by norm_num [Pref])]
    norm_num [Pref]
  have h2 : quadRoot Pref.c_f Pref.r_esr Pref.q0_c 53.444 Pref.p_on_w =
      .ok (0, 5.3444 ^ 2, 5.3444) := quadRoot_ref_init
  rw [initSim_eval Pref 53.444 0 (5.3444 ^ 2) 5.3444 h1 h2]
  norm_num [Pref, disconnectCurrent, lockoutPower]

lemma stepSim_Pref : stepSim Pref (SimState.mk 0 0 0 0 5.3444 53.444) =
    .ok (SimState.mk 0.1 0 0 0 0 53.444) := by
  have h1 : fdiv (SimState.mk (0 : ℝ) 0 0 0 5.3444 53.444).p_consumption
      (SimState.mk (0 : ℝ) 0 0 0 5.3444 53.444).capacit_term_volt = .ok 0 := by
    show fdiv 0 5.3444 = .ok 0
    rw [fdiv_of_ne _ _ (by norm_num : (5.3444 : ℝ) ≠ 0)]
    norm_num
  have h2 : quadRoot Pref.c_f Pref.r_esr
      (max ((SimState.mk (0 : ℝ) 0 0 0 5.3444 53.444).q_resultant +
        ((SimState.mk (0 : ℝ) 0 0 0 5.3444 53.444).i_resultant_a - 0) *
          Pref.drun_time_track) 0)
      (if 0 ≤ (SimState.mk (0 : ℝ) 0 0 0 5.3444 53.444).capacit_term_volt ∧
          (SimState.mk (0 : ℝ) 0 0 0 5.3444 53.444).capacit_term_volt < Pref.voc then
        (SimState.mk (0 : ℝ) 0 0 0 5.3444 53.444).short_circ_current else 0)
      (reenabledPower Pref (SimState.mk (0 : ℝ) 0 0 0 5.3444 53.444).p_consumption
        (SimState.mk (0 : ℝ) 0 0 0 5.3444 53.444).capacit_term_volt) =
      .ok (0, 0, 0) := by
    rw [show max ((SimState.mk (0 : ℝ) 0 0 0 5.3444 53.444).q_resultant +
        ((SimState.mk (0 : ℝ) 0 0 0 5.3444 53.444).i_resultant_a - 0) *
          Pref.drun_time_track) 0 = (0 : ℝ) by norm_num [Pref, max_def]]
    rw [show (if 0 ≤ (SimState.mk (0 : ℝ) 0 0 0 5.3444 53.444).capacit_term_volt ∧
          (SimState.mk (0 : ℝ) 0 0 0 5.3444 53.444).capacit_term_volt < Pref.voc then
        (SimState.mk (0 : ℝ) 0 0 0 5.3444 53.444).short_circ_current else 0) = (0 : ℝ)
      by norm_num [Pref]]
    rw [show reenabledPower Pref
        (SimState.mk (0 : ℝ) 0 0 0 5.3444 53.444).p_consumption
        (SimState.mk (0 : ℝ) 0 0 0 5.3444 53.444).capacit_term_volt = (0 : ℝ)
      by norm_num [reenabledPower, Pref]]
    exact quadRoot_ref_loop
  rw [stepSim_eval Pref _ 0 0 0 0 h1 h2]
  norm_num [Pref, disconnectCurrent, lockoutPower, max_def]

lemma runE_Pref (m : ℕ) : runE Pref (m + 2) = .error .divisionByZero := by
  unfold runE
  rw [initSim_Pref]
  show simLoop Pref (m + 1 + 1) (SimState.mk 0 0 0 0 5.3444 53.444)
    [(0, 5.3444)] = .error .divisionByZero
  rw [simLoop_step Pref (m + 1) _ (SimState.mk 0.1 0 0 0 0 53.444) _
    (by show (0 : ℝ) < Pref.dur_s; norm_num [Pref]) stepSim_Pref]
  show simLoop Pref (m + 1) (SimState.mk 0.1 0 0 0 0 53.444)
    [(0, 5.3444), (0, 0)] = .error .divisionByZero
  exact simLoop_fault_core Pref _ rfl m _
    (by show (0 : ℝ) < Pref.dur_s; norm_num [Pref])

lemma initSim_Pb : initSim Pb = .ok (SimState.mk 0 1 0 0 (3 / 4) 0) := by
  have h1 : fdiv (irrad * Pb.sa_m2 * Pb.eff) Pb.voc = .ok 0 := by
    rw [show irrad * Pb.sa_m2 * Pb.eff = (0 : ℝ) by norm_num [irrad, Pb]]
    rw [fdiv_of_ne _ _ (show Pb.voc ≠ 0 by norm_num [Pb])]
    norm_num
  have h2 : quadRoot Pb.c_f Pb.r_esr Pb.q0_c 0 Pb.p_on_w =
      .ok (3 / 16, 1 / 4, 3 / 4) := quadRoot_pb
  rw [initSim_eval Pb 0 (3 / 16) (1 / 4) (3 / 4) h1 h2]
  norm_num [Pb, disconnectCurrent, lockoutPower]

lemma initSim_Pneg : initSim Pneg = .ok (SimState.mk 0 (-1) 0 0 0 0) := by
  have h1 : fdiv (irrad * Pneg.sa_m2 * Pneg.eff) Pneg.voc = .ok 0 := by
    rw [show irrad * Pneg.sa_m2 * Pneg.eff = (0 : ℝ) by norm_num [irrad, Pneg]]
    rw [fdiv_of_ne _ _ (show Pneg.voc ≠ 0 by norm_num [Pneg])]
    norm_num
  have h2 : quadRoot Pneg.c_f Pneg.r_esr Pneg.q0_c 0 Pneg.p_on_w =
      .ok (0, 1, 0) := quadRoot_neg_init
  rw [initSim_eval Pneg 0 0 1 0 h1 h2]
  norm_num [Pneg, disconnectCurrent, lockoutPower]

lemma quadRoot_fst_cases {c r q i p : ℝ} {w : ℝ × ℝ × ℝ}
    (h : quadRoot c r q i p = .ok w) : w.1 = p ∨ w.1 = 0 := by
  obtain ⟨_, hcase⟩ := quadRoot_ok_elim h
  rcases hcase with ⟨_, hw⟩ | ⟨_, hw⟩
  · right; rw [hw]
  · left; rw [hw]

/-- C1 counterexample: on the spec's own reference inputs (`Pref`) the
run does not produce 11 samples: it faults with a division by zero at
the second loop iteration (the voltage reaches exactly 0 after the
array disconnects with an empty capacitor).  On the completing run
`Pa` (`dur_s = 1` an exact multiple of `drun_time_track = 1`), the log
has 3 samples, not the `floor(1/1) + 1 = 2` the claim computes. -/
theorem sampleCount_claim_cex :
    runE Pref 11 = .error .divisionByZero ∧
    runE Pa 2 = .ok logPa ∧ logPa.length = 3 ∧
    logPa.length ≠ ⌊Pa.dur_s / Pa.drun_time_track⌋.toNat + 1 := by
  refine ⟨runE_Pref 9, runE_Pa 0, rfl, ?_⟩
  rw [show Pa.dur_s / Pa.drun_time_track = (1 : ℝ) by norm_num [Pa], Int.floor_one]
  norm_num [logPa]

/-- C1 witness: for the completing run `Pa` (positive exact-multiple
case) the amended count is `floor(1/1) + 2 = 3`. -/
theorem runE_sample_count_witness :
    (0 : ℝ) < Pa.drun_time_track ∧ logPa.length = 3 := by
  refine ⟨by norm_num [Pa], ?_⟩
  have h := (runE_sample_count Pa logPa (by norm_num [Pa]) (by norm_num [Pa])
    Completes_Pa).2.1 (by norm_num [Pa]) ⟨1, by norm_num [Pa]⟩
  rw [h, show Pa.dur_s / Pa.drun_time_track = (1 : ℝ) by norm_num [Pa], Int.floor_one]
  rfl

/-- C2 counterexample: the completed run with parameters `Pa` emits the
time sequence `[0, 0, 1]`: the second sample repeats time 0 instead of
increasing by `drun_time_track = 1`, refuting strict `+dt` stepping
between every pair of consecutive samples. -/
theorem times_stepped_cex :
    runE Pa 2 = .ok logPa ∧
    ¬ TimesStepped Pa.drun_time_track (logPa.map Prod.fst) := by
  refine ⟨runE_Pa 0, fun h => ?_⟩
  have h1 : (0 : ℝ) = 0 + Pa.drun_time_track := h.1
  norm_num [Pa] at h1

/-- C2 witness: for `Pa` the time sequence of the completed log is
exactly `[0, 0, 1]` (initial sample, duplicated time 0, then `+dt`). -/
theorem runE_times_shape_witness :
    logPa.map Prod.fst = [0, 0, 1] ∧ iterCount Pa 0 0 = 2 := by
  have hic : iterCount Pa 0 0 = 2 := by
    rw [iterCount_init, if_neg (by norm_num [Pa] : ¬ Pa.dur_s ≤ 0),
      show Pa.dur_s / Pa.drun_time_track = (1 : ℝ) by norm_num [Pa], Int.ceil_one]
    rfl
  have h := runE_times_shape Pa logPa (by norm_num [Pa]) Completes_Pa
  refine ⟨?_, hic⟩
  rw [h, hic]
  norm_num [Pa, List.range_succ]

/-- C3 counterexample: with a negative initial charge (`Pneg`,
`q0_c = -1`) the state after initialization carries
`q_resultant = -1 < 0`, and that negative charge was the value fed to
the initial quadratic-root computation (line 70 uses the unclamped
`q_resultant = q0_c`); so chargeC is not nonnegative at every point of
a run. -/
theorem charge_nonneg_cex :
    initSim Pneg = .ok (SimState.mk 0 (-1) 0 0 0 0) ∧
    (SimState.mk (0 : ℝ) (-1) 0 0 0 0).q_resultant < 0 ∧ Pneg.q0_c < 0 := by
  exact ⟨initSim_Pneg, by norm_num, by norm_num [Pneg]⟩

/-- C3 (amended): after every per-iteration charge update the stored
charge is clamped with `max(·, 0)` (line 96), so the post-update
`q_resultant` of every successful step is nonnegative — and hence every
per-iteration quadratic-root computation receives a nonnegative charge.
Only the initial computation can see a negative `initialChargeC`. -/
theorem stepSim_charge_nonneg (P : Params) (s s2 : SimState)
    (h : stepSim P s = .ok s2) : 0 ≤ s2.q_resultant := by
  obtain ⟨i3, p2, d, v1, _, _, hs2⟩ := stepSim_ok_elim h
  rw [hs2]
  exact le_max_right _ _

/-- C3 witness: the first loop step of the `Pa` run yields charge 1 ≥ 0. -/
theorem stepSim_charge_nonneg_witness :
    0 ≤ (SimState.mk (1 : ℝ) 1 0 0 1 0).q_resultant :=
  stepSim_charge_nonneg Pa (SimState.mk 0 1 0 0 1 0) (SimState.mk 1 1 0 0 1 0)
    (by have := stepSim_Pa 0; norm_num at this; exact this)

/-- C4: in the quadratic-root block, if the discriminant
`linearTerm^2 - 4*loadPowerW*esrOhm` is negative then the load power is
forced to 0 and the recomputed discriminant equals `linearTerm^2 - 4*0*r
= linearTerm^2 ≥ 0`, so the negative branch cannot trigger twice; and in
every successful quadratic-root computation the discriminant handed to
`sqrt` is nonnegative. -/
theorem quadRoot_discriminant_recovery (c r q i p : ℝ) (hc : c ≠ 0) :
    ((q / c + i * r) ^ 2 - 4 * p * r < 0 →
      quadRoot c r q i p = .ok (0, (q / c + i * r) ^ 2 - 4 * 0 * r,
        (q / c + i * r + Real.sqrt ((q / c + i * r) ^ 2 - 4 * 0 * r)) / 2) ∧
      0 ≤ (q / c + i * r) ^ 2 - 4 * 0 * r) ∧
    (∀ w, quadRoot c r q i p = .ok w → 0 ≤ w.2.1) := by
  constructor
  · intro hd
    constructor
    · unfold quadRoot
      rw [fdiv_of_ne _ _ hc]
      simp only [if_pos hd]
    · have he : (q / c + i * r) ^ 2 - 4 * 0 * r = (q / c + i * r) ^ 2 := by ring
      rw [he]
      exact sq_nonneg _
  · intro w hw
    obtain ⟨_, hcase⟩ := quadRoot_ok_elim hw
    rcases hcase with ⟨hd, hw2⟩ | ⟨hd, hw2⟩
    · rw [hw2]
      show 0 ≤ (q / c + i * r) ^ 2 - 4 * 0 * r
      nlinarith [sq_nonneg (q / c + i * r)]
    · rw [hw2]
      show 0 ≤ (q / c + i * r) ^ 2 - 4 * p * r
      exact not_lt.mp hd

/-- C4 witness: at `c=1, r=1, q=0, i=0, p=1` the discriminant is
`-4 < 0`; the recovery zeroes the power and yields discriminant 0. -/
theorem quadRoot_discriminant_recovery_witness :
    quadRoot 1 1 0 0 1 = .ok (0, ((0 : ℝ) / 1 + 0 * 1) ^ 2 - 4 * 0 * 1,
      ((0 : ℝ) / 1 + 0 * 1 +
        Real.sqrt (((0 : ℝ) / 1 + 0 * 1) ^ 2 - 4 * 0 * 1)) / 2) ∧
    (0 : ℝ) ≤ ((0 : ℝ) / 1 + 0 * 1) ^ 2 - 4 * 0 * 1 :=
  (quadRoot_discriminant_recovery 1 1 0 0 1 (by norm_num)).1 (by norm_num)

/-- C5 counterexample: with `Pb` (`voc = 1/2 < v_thresh = 1`,
`p_on_w = 3/16`), the initial voltage is `3/4 < v_thresh`, so the
lockout stores load power 0; but in the next step the re-enable logic
(line 102: `p == 0 and v >= voc`) restores `p_on_w = 3/16 ≠ 0`, which is
the power handed to that step's quadratic-root computation. -/
theorem threshold_lockout_cex :
    initSim Pb = .ok (SimState.mk 0 1 0 0 (3 / 4) 0) ∧
    (SimState.mk (0 : ℝ) 1 0 0 (3 / 4) 0).capacit_term_volt < Pb.v_thresh ∧
    reenabledPower Pb (SimState.mk (0 : ℝ) 1 0 0 (3 / 4) 0).p_consumption
      (SimState.mk (0 : ℝ) 1 0 0 (3 / 4) 0).capacit_term_volt = 3 / 16 ∧
    (3 / 16 : ℝ) ≠ 0 := by
  refine ⟨initSim_Pb, by norm_num [Pb], ?_, by norm_num⟩
  show reenabledPower Pb 0 (3 / 4) = 3 / 16
  rw [reenabledPower, if_pos ⟨rfl, by norm_num [Pb]⟩]
  norm_num [Pb]

/-- C5 (amended): a voltage below the threshold zeroes the stored load
power (lockout), and — provided the voltage is also below the
open-circuit voltage, so the re-enable of lines 102-103 does not fire —
the load power used by the next step's quadratic-root computation is 0.
When `voc ≤ v < v_thresh` the re-enable can restore it first. -/
theorem threshold_lockout_amended (P : Params) :
    (∀ s s2, stepSim P s = .ok s2 → s2.capacit_term_volt < P.v_thresh →
      s2.p_consumption = 0) ∧
    (∀ p v, v < P.v_thresh → v < P.voc →
      reenabledPower P (lockoutPower P p v) v = 0) := by
  constructor
  · intro s s2 h hv
    obtain ⟨i3, p2, d, v1, _, _, hs2⟩ := stepSim_ok_elim h
    subst hs2
    have hv2 : v1 < P.v_thresh := hv
    show lockoutPower P p2 v1 = 0
    rw [lockoutPower, if_pos hv2]
  · intro p v h1 h2
    rw [lockoutPower, if_pos h1, reenabledPower,
      if_neg (fun hh => absurd hh.2 (not_le.mpr h2))]

/-- C5 witness: with `Pb` and a voltage 0 below both thresholds, the
power reaching the next quadratic-root computation is 0. -/
theorem threshold_lockout_amended_witness :
    reenabledPower Pb (lockoutPower Pb 5 0) 0 = 0 :=
  (threshold_lockout_amended Pb).2 5 0 (by norm_num [Pb]) (by norm_num [Pb])

/-- C6: if at the start of a loop iteration the node voltage is exactly
0 while the load power is nonzero, the load-current division of line 94
raises the division-by-zero fault, and the loop propagates it: the whole
run aborts with the error, with no recovery. -/
theorem div_by_zero_fault_propagates (P : Params) (s : SimState)
    (hv : s.capacit_term_volt = 0) (hp : s.p_consumption ≠ 0) :
    stepSim P s = .error .divisionByZero ∧
    ∀ fuel log, (log.getLastD (0, 0)).1 < P.dur_s →
      simLoop P (fuel + 1) s log = .error .divisionByZero :=
  ⟨stepSim_fault_core P s hv,
    fun fuel log hc => simLoop_fault_core P s hv fuel log hc⟩

/-- C6 witness: a state with voltage 0 and load power 1 faults, and the
loop from it returns the error. -/
theorem div_by_zero_fault_propagates_witness :
    stepSim Pb (SimState.mk 0 0 0 1 0 0) = .error .divisionByZero ∧
    simLoop Pb 1 (SimState.mk 0 0 0 1 0 0) [(0, 0)] = .error .divisionByZero := by
  have h := div_by_zero_fault_propagates Pb (SimState.mk 0 0 0 1 0 0) rfl
    (by norm_num)
  exact ⟨h.1, h.2 0 [(0, 0)] (by show (0 : ℝ) < Pb.dur_s; norm_num [Pb])⟩

/-- C9: the load-current division of line 94 is unguarded for every
load power: a node voltage of exactly 0 faults the step even when the
load power is 0 (the 0/0 case), since Python float division raises on a
zero denominator regardless of the numerator. -/
theorem div_by_zero_even_when_power_zero (P : Params) (s : SimState)
    (hv : s.capacit_term_volt = 0) :
    stepSim P s = .error .divisionByZero :=
  stepSim_fault_core P s hv

/-- C9 witness: voltage 0 with load power 0 still faults. -/
theorem div_by_zero_even_when_power_zero_witness :
    stepSim Pb (SimState.mk 0 0 0 0 0 0) = .error .divisionByZero :=
  div_by_zero_even_when_power_zero Pb (SimState.mk 0 0 0 0 0 0) rfl

/-- C8: every successful quadratic-root computation returns the voltage
`(linearTerm + sqrt(discriminant)) / 2`; and when the incoming
discriminant `linearTerm^2 - 4*p*r` is nonnegative this voltage
satisfies `v^2 - linearTerm*v + p*r = 0` and dominates every root of
that quadratic, i.e. it is the larger root. -/
theorem nodeVoltage_larger_root (c r q i p : ℝ) (hc : c ≠ 0) :
    (∃ p2 d v, quadRoot c r q i p = .ok (p2, d, v) ∧
      v = (q / c + i * r + Real.sqrt d) / 2) ∧
    (0 ≤ (q / c + i * r) ^ 2 - 4 * p * r →
      quadRoot c r q i p = .ok (p, (q / c + i * r) ^ 2 - 4 * p * r,
        (q / c + i * r + Real.sqrt ((q / c + i * r) ^ 2 - 4 * p * r)) / 2) ∧
      ((q / c + i * r + Real.sqrt ((q / c + i * r) ^ 2 - 4 * p * r)) / 2) ^ 2 -
        (q / c + i * r) *
          ((q / c + i * r + Real.sqrt ((q / c + i * r) ^ 2 - 4 * p * r)) / 2) +
        p * r = 0 ∧
      ∀ x, x ^ 2 - (q / c + i * r) * x + p * r = 0 →
        x ≤ (q / c + i * r + Real.sqrt ((q / c + i * r) ^ 2 - 4 * p * r)) / 2) := by
  constructor
  · obtain ⟨w, hw⟩ := quadRoot_of_ne r q i p hc
    obtain ⟨_, hcase⟩ := quadRoot_ok_elim hw
    rcases hcase with ⟨_, hw2⟩ | ⟨_, hw2⟩ <;> subst hw2
    · exact ⟨_, _, _, hw, rfl⟩
    · exact ⟨_, _, _, hw, rfl⟩
  · intro hd
    have hsq : Real.sqrt ((q / c + i * r) ^ 2 - 4 * p * r) ^ 2 =
        (q / c + i * r) ^ 2 - 4 * p * r := Real.sq_sqrt hd
    refine ⟨?_, ?_, ?_⟩
    · unfold quadRoot
      rw [fdiv_of_ne _ _ hc]
      simp only [if_neg (not_lt.mpr hd)]
    · nlinarith [hsq]
    · intro x hx
      have h2 : (2 * x - (q / c + i * r)) ^ 2 =
          (q / c + i * r) ^ 2 - 4 * p * r := by nlinarith [hx]
      have h3 : 2 * x - (q / c + i * r) ≤
          Real.sqrt ((q / c + i * r) ^ 2 - 4 * p * r) := by
        rw [← h2, Real.sqrt_sq_eq_abs]
        exact le_abs_self _
      linarith

/-- C8 witness: at `c=1, r=0, q=1, i=0, p=3` the discriminant is 1 ≥ 0
and the returned voltage is the larger root of `x^2 - x = 0`. -/
theorem nodeVoltage_larger_root_witness :
    (0 : ℝ) ≤ ((1 : ℝ) / 1 + 0 * 0) ^ 2 - 4 * 3 * 0 ∧
    quadRoot 1 0 1 0 3 = .ok (3, ((1 : ℝ) / 1 + 0 * 0) ^ 2 - 4 * 3 * 0,
      ((1 : ℝ) / 1 + 0 * 0 +
        Real.sqrt (((1 : ℝ) / 1 + 0 * 0) ^ 2 - 4 * 3 * 0)) / 2) := by
  have h := (nodeVoltage_larger_root 1 0 1 0 3 (by norm_num)).2 (by norm_num)
  exact ⟨by norm_num, h.1⟩

/-- C10: after a successful initialization the state satisfies the
invariant that the load power is 0 or `p_on_w` and the source current is
0 or the stored short-circuit current (itself the derived constant
`irrad * sa_m2 * eff / voc`), and every successful loop step preserves
it, keeping the short-circuit current unchanged. -/
theorem power_current_invariant (P : Params) :
    (∀ s0, initSim P = .ok s0 → simInv P s0 ∧
      s0.short_circ_current = irrad * P.sa_m2 * P.eff / P.voc) ∧
    (∀ s s2, simInv P s → stepSim P s = .ok s2 → simInv P s2 ∧
      s2.short_circ_current = s.short_circ_current) := by
  constructor
  · intro s0 h
    obtain ⟨scc, p1, d, v, hfd, hq, hs0⟩ := initSim_ok_elim h
    obtain ⟨hvoc, hscc⟩ := fdiv_ok_elim hfd
    have hp1 : p1 = P.p_on_w ∨ p1 = 0 := quadRoot_fst_cases hq
    subst hs0
    refine ⟨⟨?_, ?_⟩, hscc⟩
    · show lockoutPower P p1 v = 0 ∨ lockoutPower P p1 v = P.p_on_w
      rw [lockoutPower]
      split
      · exact Or.inl rfl
      · rcases hp1 with hp1 | hp1
        · exact Or.inr hp1
        · exact Or.inl hp1
    · show disconnectCurrent P scc v = 0 ∨ disconnectCurrent P scc v = scc
      rw [disconnectCurrent]
      split
      · exact Or.inl rfl
      · exact Or.inr rfl
  · intro s s2 hInv h
    obtain ⟨i3, p2, d, v1, hfd, hq, hs2⟩ := stepSim_ok_elim h
    have hp2 : p2 = reenabledPower P s.p_consumption s.capacit_term_volt ∨
        p2 = 0 := quadRoot_fst_cases hq
    subst hs2
    refine ⟨⟨?_, ?_⟩, rfl⟩
    · show lockoutPower P p2 v1 = 0 ∨ lockoutPower P p2 v1 = P.p_on_w
      rw [lockoutPower]
      split
      · exact Or.inl rfl
      · rcases hp2 with hp2 | hp2
        · rw [hp2, reenabledPower]
          split
          · exact Or.inr rfl
          · rcases hInv.1 with hi | hi
            · exact Or.inl hi
            · exact Or.inr hi
        · exact Or.inl hp2
    · show disconnectCurrent P
        (if 0 ≤ s.capacit_term_volt ∧ s.capacit_term_volt < P.voc then
          s.short_circ_current else 0) v1 = 0 ∨
        disconnectCurrent P
          (if 0 ≤ s.capacit_term_volt ∧ s.capacit_term_volt < P.voc then
            s.short_circ_current else 0) v1 = s.short_circ_current
      rw [disconnectCurrent]
      split
      · split
        · exact Or.inl rfl
        · exact Or.inr rfl
      · split
        · exact Or.inl rfl
        · exact Or.inl rfl

/-- C10 witness: the invariant holds for the initial state of the `Pa`
run and is preserved across its first loop step. -/
theorem power_current_invariant_witness :
    simInv Pa (SimState.mk 0 1 0 0 1 0) ∧ simInv Pa (SimState.mk 1 1 0 0 1 0) := by
  have h1 := (power_current_invariant Pa).1 (SimState.mk 0 1 0 0 1 0) initSim_Pa
  have h2 := (power_current_invariant Pa).2 (SimState.mk 0 1 0 0 1 0)
    (SimState.mk 1 1 0 0 1 0) h1.1
    (by have := stepSim_Pa 0; norm_num at this; exact this)
  exact ⟨h1.1, h2.1⟩

end SimEnergy
